import Mathlib

/-!
Verification of the cross-recording story alignment engine.

This file gives a shallow embedding, in Lean 4, of the alignment pipeline
implemented in `scripts/05_find_story_overlaps_fast.py` (windowing, TF-IDF
candidate generation, LLM verification with greedy assignment) and
`scripts/05b_consolidate_alt_tellings.py` (false-positive filtering and
consolidation of matches into aligned story spans), together with theorems
settling the specification's claims about these components.

Modelling conventions:
* Python floats (times, scores, similarities) are modelled as `ℚ`.
* Python strings are Lean `String`s; `str.strip()` is re-implemented on
  character lists (`strip`) so that it evaluates by kernel reduction.
* The external Ollama service is modelled as an oracle argument: `none`
  models a failed call (timeout / exception), `some r` a response body `r`.
* The TF-IDF cosine-similarity matrix of phase 2 is abstracted as a given
  function `sim : ℕ → ℕ → ℚ`; the claims under study quantify over it.
* Python's stable `list.sort` is modelled by stable insertion sorts
  (`sortAscBy`, `sortDescBy`).
* List indexing `windows[i]` in phase 3 (always in range, as candidate
  indices come from `range`) is modelled by total index maps `ℕ → Window`.
-/

namespace Overlaps

/-! Configuration constants of `05_find_story_overlaps_fast.py`. -/

def WINDOW_DURATION : ℚ := 90
def WINDOW_OVERLAP : ℚ := 45
def MIN_TEXT_LENGTH : ℕ := 150
def TOP_K_CANDIDATES : ℕ := 500
def MATCH_THRESHOLD : ℕ := 8

/-- A transcript segment (`{start, end, text}`); the source's `end` field is
called `stop` here because `end` is a Lean keyword. -/
structure Seg where
  start : ℚ
  stop : ℚ
  text : String
deriving DecidableEq, Inhabited

/-- The `Window` dataclass. -/
structure Window where
  recording : String
  start : ℚ
  stop : ℚ
  text : String
  topics : String := ""
  window_idx : ℕ := 0
deriving DecidableEq, Inhabited

/-- The `Match` dataclass produced by phase 3. -/
structure Match where
  norm_start : ℚ
  norm_end : ℚ
  tdk_start : ℚ
  tdk_end : ℚ
  score : ℕ
  norm_topics : String
  tdk_topics : String
  similarity : ℚ
deriving DecidableEq, Inhabited

/-- Python `str.strip()` on a character list: drop whitespace from both ends. -/
def stripChars (cs : List Char) : List Char :=
  ((cs.dropWhile Char.isWhitespace).reverse.dropWhile Char.isWhitespace).reverse

/-- Python `str.strip()`. -/
def strip (s : String) : String :=
  String.mk (stripChars s.data)

/-- `get_text_in_range`: join (with spaces) the text of all segments whose
time range intersects `[start_time, end_time)`; the source keeps a segment
when `seg_end >= start_time and seg_start < end_time`. -/
def get_text_in_range (transcript : List Seg) (start_time end_time : ℚ) : String :=
  String.intercalate " "
    ((transcript.filter
        (fun seg => decide (start_time ≤ seg.stop) && decide (seg.start < end_time))).map Seg.text)

/-- The emission condition of `create_windows`: the source keeps a window when
`text.strip()` is truthy (nonempty) and has length at least `MIN_TEXT_LENGTH`
(the argument here is the already-stripped text). -/
def window_text_ok (text : String) : Bool :=
  decide (text ≠ "") && decide (MIN_TEXT_LENGTH ≤ text.length)

/-- The `while start_time < total_duration` loop of `create_windows`,
with the step `dur - overlap` precomputed as `step` and an explicit fuel
bound on the number of iterations (the source loop terminates because the
step is positive; theorems assume enough fuel). -/
def create_windows_loop (transcript : List Seg) (recording_name : String)
    (total dur step : ℚ) : ℕ → ℚ → ℕ → List Window
  | 0, _, _ => []
  | fuel + 1, start_time, idx =>
    if start_time < total then
      let end_time := min (start_time + dur) total
      let text := strip (get_text_in_range transcript start_time end_time)
      if window_text_ok text then
        { recording := recording_name, start := start_time, stop := end_time,
          text := text, topics := "", window_idx := idx } ::
          create_windows_loop transcript recording_name total dur step fuel
            (start_time + step) (idx + 1)
      else
        create_windows_loop transcript recording_name total dur step fuel
          (start_time + step) idx
    else []

/-- The transcript's effective time bound in `create_windows`:
`transcript[-1].get('end', 0)`, capped by `max_time` when given. -/
def window_total (transcript : List Seg) (max_time : Option ℚ) : ℚ :=
  let total0 := ((transcript.getLast?).map Seg.stop).getD 0
  match max_time with
  | none => total0
  | some m => min total0 m

/-- `create_windows` from `05_find_story_overlaps_fast.py` (the copy in
`05b_find_story_overlaps_v2.py` is the same algorithm with `min_time`
fixed to `0` and `duration`/`overlap` passed as parameters, so both are
covered by this parametrised model). -/
def create_windows (transcript : List Seg) (recording_name : String)
    (dur overlap min_time : ℚ) (max_time : Option ℚ) (fuel : ℕ) : List Window :=
  if transcript = [] then []
  else
    create_windows_loop transcript recording_name (window_total transcript max_time)
      dur (dur - overlap) fuel min_time 0

/-! Stable sorts, modelling Python's stable `list.sort(key=...)`
(`sortAscBy`) and `list.sort(key=..., reverse=True)` (`sortDescBy`):
an element is inserted after all already-placed elements that compare
less-or-equal favourably, so ties keep their original relative order. -/

def insertAscBy {α : Type} (key : α → ℚ) (x : α) : List α → List α
  | [] => [x]
  | y :: ys => if key y ≤ key x then y :: insertAscBy key x ys else x :: y :: ys

def sortAscBy {α : Type} (key : α → ℚ) (l : List α) : List α :=
  l.foldl (fun acc x => insertAscBy key x acc) []

def insertDescBy {α : Type} (key : α → ℚ) (x : α) : List α → List α
  | [] => [x]
  | y :: ys => if key x ≤ key y then y :: insertDescBy key x ys else x :: y :: ys

def sortDescBy {α : Type} (key : α → ℚ) (l : List α) : List α :=
  l.foldl (fun acc x => insertDescBy key x acc) []

/-- The candidate accumulation loop of `phase2_fuzzy_match`: for `i` in
`range(len(norm_windows))`, for `j` in `range(len(tdk_windows))`, keep
`(i, j, sim)` when `sim >= similarity_threshold`.  The cosine-similarity
matrix produced by `TfidfVectorizer` / `cosine_similarity` is abstracted
as the given matrix `sim`. -/
def phase2_candidates (sim : ℕ → ℕ → ℚ) (nNorm nTdk : ℕ) (similarity_threshold : ℚ) :
    List (ℕ × ℕ × ℚ) :=
  ((List.range nNorm).map (fun i =>
      (List.range nTdk).filterMap (fun j =>
        if similarity_threshold ≤ sim i j then some (i, j, sim i j) else none))).flatten

/-- `phase2_fuzzy_match`: collect candidates above the threshold, sort them
descending by similarity (`candidates.sort(key=lambda x: x[2], reverse=True)`)
and truncate to the `top_k` best. -/
def phase2_fuzzy_match (sim : ℕ → ℕ → ℚ) (nNorm nTdk : ℕ)
    (similarity_threshold : ℚ) (top_k : ℕ) : List (ℕ × ℕ × ℚ) :=
  (sortDescBy (fun c => c.2.2) (phase2_candidates sim nNorm nTdk similarity_threshold)).take top_k

/-! Modelling `call_ollama`.  A service outcome is an `Option String`:
`some r` is the `response.json().get("response", "")` body of a successful
HTTP call, `none` is the exception path (timeout, connection error, bad
status).  With `expect_number=True` the source extracts the first match of
the regex `\b(\d+)\b` from the stripped response and falls back to `"0"`. -/

/-- A regex word character (`\w`): letter, digit or underscore. -/
def isWordChar (c : Char) : Bool :=
  c.isAlphanum || c = '_'

/-- Scanner equivalent to searching `\b(\d+)\b`: the first maximal run of
digits that is not adjacent to a word character on either side.  `prevW`
says whether the previous character was a word character; `cur` is the
digit run currently being assembled (only started after a non-word
boundary). -/
def findNumber : List Char → Bool → Option (List Char) → Option (List Char)
  | [], _, cur => cur
  | c :: cs, prevW, cur =>
    if c.isDigit then
      match cur with
      | some r => findNumber cs true (some (r ++ [c]))
      | none => if prevW then findNumber cs true none else findNumber cs true (some [c])
    else
      match cur with
      | some r => if isWordChar c then findNumber cs true none else some r
      | none => findNumber cs (isWordChar c) none

/-- `call_ollama(prompt, expect_number=True)`: strip the response, return the
first `\b(\d+)\b` match, else `"0"`; the exception handler also returns
`"0"`. -/
def call_ollama_number : Option String → String
  | none => "0"
  | some r =>
    match findNumber (strip r).data false none with
    | some ds => String.mk ds
    | none => "0"

/-- `call_ollama(prompt)` without `expect_number`: the stripped response on
success, `""` on failure. -/
def call_ollama_text : Option String → String
  | none => ""
  | some r => strip r

/-- `call_ollama` makes exactly one HTTP request (`requests.post` inside a
single `try`).  To make the absence of a retry observable, this wrapper is
given the outcomes that successive attempts would have had; the source
consults only the first. -/
def call_ollama_first_attempt (attempts : List (Option String)) : String :=
  call_ollama_text (attempts.headD none)

/-- Python `int(s)` restricted to the strings `call_ollama` can return for
`expect_number=True` (plain digit runs): `none` models a `ValueError`. -/
def int_of_string (s : String) : Option ℕ :=
  if s.data ≠ [] ∧ s.data.all Char.isDigit then
    some (s.data.foldl (fun a c => 10 * a + (c.toNat - 48)) 0)
  else none

/-- The score a candidate gets in `phase3_verify_matches`:
`int(call_ollama(prompt, expect_number=True))` with `ValueError ↦ 0`. -/
def ollama_score (response : Option String) : ℕ :=
  (int_of_string (call_ollama_number response)).getD 0

/-- `phase1_extract_topics` assigns `windows[idx].topics = call_ollama(...)`
for every index; the thread pool only parallelises the calls, each index is
written exactly once with the outcome of its own call.  `service idx` is the
outcome of the summarization call for window `idx`. -/
def phase1_loop (service : ℕ → Option String) : ℕ → List Window → List Window
  | _, [] => []
  | i, w :: ws => { w with topics := call_ollama_text (service i) } :: phase1_loop service (i + 1) ws

/-- Phase 1: topic extraction over all windows. -/
def phase1_extract_topics (service : ℕ → Option String) (windows : List Window) : List Window :=
  phase1_loop service 0 windows

/-- State of the phase-3 loop.  `matchList` and `matched_tdk` are the
source's `matches` list and `matched_tdk` set (`matches` is a Lean keyword); `scored` and `accepted` are
instrumentation recording which candidates were actually sent to the
verification service and which were accepted (the accepted candidate
`(norm_idx, tdk_idx, sim)` in acceptance order). -/
structure Phase3State where
  matchList : List Match
  matched_tdk : Finset ℕ
  scored : List (ℕ × ℕ)
  accepted : List (ℕ × ℕ × ℚ)
deriving DecidableEq

/-- The `Match` record built for an accepted candidate `c`. -/
def mkMatch (nw tw : ℕ → Window) (score : ℕ → ℕ → ℕ) (c : ℕ × ℕ × ℚ) : Match :=
  { norm_start := (nw c.1).start, norm_end := (nw c.1).stop,
    tdk_start := (tw c.2.1).start, tdk_end := (tw c.2.1).stop,
    score := score c.1 c.2.1,
    norm_topics := (nw c.1).topics, tdk_topics := (tw c.2.1).topics,
    similarity := c.2.2 }

/-- One iteration of the phase-3 loop over candidates: skip when the
TDK index is already claimed, otherwise score via the LLM and accept when
`score >= match_threshold`.  `score i j` abstracts the (deterministic)
verification score the service gives the pair of windows `(i, j)`. -/
def phase3_step (nw tw : ℕ → Window) (score : ℕ → ℕ → ℕ) (match_threshold : ℕ)
    (st : Phase3State) (c : ℕ × ℕ × ℚ) : Phase3State :=
  if c.2.1 ∈ st.matched_tdk then st
  else
    let s := score c.1 c.2.1
    if match_threshold ≤ s then
      { matchList := st.matchList ++ [mkMatch nw tw score c],
        matched_tdk := insert c.2.1 st.matched_tdk,
        scored := st.scored ++ [(c.1, c.2.1)],
        accepted := st.accepted ++ [c] }
    else
      { st with scored := st.scored ++ [(c.1, c.2.1)] }

/-- The phase-3 loop, started from empty `matches` / `matched_tdk`. -/
def phase3_run (nw tw : ℕ → Window) (score : ℕ → ℕ → ℕ) (match_threshold : ℕ)
    (candidates : List (ℕ × ℕ × ℚ)) : Phase3State :=
  candidates.foldl (phase3_step nw tw score match_threshold) ⟨[], ∅, [], []⟩

/-- `phase3_verify_matches`: the verified-match list. -/
def phase3_verify_matches (nw tw : ℕ → Window) (score : ℕ → ℕ → ℕ) (match_threshold : ℕ)
    (candidates : List (ℕ × ℕ × ℚ)) : List Match :=
  (phase3_run nw tw score match_threshold candidates).matchList

end Overlaps

namespace Consolidate

/-! Configuration constants of `05b_consolidate_alt_tellings.py`. -/

def TDK_EXACT_MATCH : Bool := false
def TDK_OVERLAP_THRESHOLD : ℚ := 45
def NORM_GAP_THRESHOLD : ℚ := 60
def FILTER_TIME_DIFF_THRESHOLD : ℚ := 1800
def FILTER_MIN_SCORE : ℚ := 8

/-- The `StoryEntry` dataclass: one alternate-telling match loaded from
`alternate_tellings.json`. -/
structure StoryEntry where
  topic : String
  confidence : String
  score : ℚ
  norm_start : ℚ
  norm_end : ℚ
  tdk_start : ℚ
  tdk_end : ℚ
  norm_preview : String
  tdk_preview : String
deriving DecidableEq, Inhabited

/-- `ranges_overlap`: two time ranges overlap by at least `threshold`
seconds. -/
def ranges_overlap (start1 end1 start2 end2 threshold : ℚ) : Prop :=
  threshold ≤ min end1 end2 - max start1 start2

instance (start1 end1 start2 end2 threshold : ℚ) :
    Decidable (ranges_overlap start1 end1 start2 end2 threshold) := by
  unfold ranges_overlap
  infer_instance

/-- The false-positive test of `filter_false_positives`: midpoint time
difference above `FILTER_TIME_DIFF_THRESHOLD` AND score below
`FILTER_MIN_SCORE`. -/
def is_false_positive (e : StoryEntry) : Prop :=
  FILTER_TIME_DIFF_THRESHOLD < |(e.norm_start + e.norm_end) / 2 - (e.tdk_start + e.tdk_end) / 2|
    ∧ e.score < FILTER_MIN_SCORE

instance (e : StoryEntry) : Decidable (is_false_positive e) := by
  unfold is_false_positive
  infer_instance

/-- `filter_false_positives`: split the entries into `(kept, filtered)`;
with filtering disabled everything is kept.  The source builds both lists
in one pass in input order, which is the same as filtering twice. -/
def filter_false_positives (entries : List StoryEntry) (filter_enabled : Bool) :
    List StoryEntry × List StoryEntry :=
  if filter_enabled then
    (entries.filter (fun e => !decide (is_false_positive e)),
     entries.filter (fun e => decide (is_false_positive e)))
  else (entries, [])

/-- `group_by_tdk_exact`: group entries by exact `(tdk_start, tdk_end)` key;
`defaultdict` iterates keys in first-appearance order and each group keeps
input order. -/
def group_by_tdk_exact (entries : List StoryEntry) : List (List StoryEntry) :=
  (entries.foldl
    (fun gs e =>
      let k := (e.tdk_start, e.tdk_end)
      if gs.any (fun g => g.1 = k) then
        gs.map (fun g => if g.1 = k then (g.1, g.2 ++ [e]) else g)
      else gs ++ [(k, [e])])
    []).map Prod.snd

/-- The grouping loop of `group_by_tdk_overlap` over the tail of the sorted
entries.  `g0start` is `current_group[0].tdk_start`, `cur_end` the running
`current_tdk_end`; the hard-coded local `overlap_threshold` is 30 seconds. -/
def group_loop (g0start cur_end : ℚ) (cur_group : List StoryEntry) :
    List StoryEntry → List (List StoryEntry)
  | [] => [cur_group]
  | e :: rest =>
    if ranges_overlap e.tdk_start e.tdk_end g0start cur_end 30 then
      group_loop g0start (max cur_end e.tdk_end) (cur_group ++ [e]) rest
    else
      cur_group :: group_loop e.tdk_start e.tdk_end [e] rest

/-- `group_by_tdk_overlap`: sort by `tdk_start` and chain entries whose TDK
range overlaps the current group's accumulated range by at least 30s. -/
def group_by_tdk_overlap (entries : List StoryEntry) : List (List StoryEntry) :=
  if TDK_EXACT_MATCH then group_by_tdk_exact entries
  else
    match Overlaps.sortAscBy (fun e : StoryEntry => e.tdk_start) entries with
    | [] => []
    | e :: rest => group_loop e.tdk_start e.tdk_end [e] rest

/-- The merging loop of `merge_norm_ranges` over the tail of the sorted
group: extend the current run while the next entry starts within
`NORM_GAP_THRESHOLD` of its end. -/
def merge_loop (cur_start cur_end : ℚ) (cur_entries : List StoryEntry) :
    List StoryEntry → List (ℚ × ℚ × List StoryEntry)
  | [] => [(cur_start, cur_end, cur_entries)]
  | e :: rest =>
    if e.norm_start ≤ cur_end + NORM_GAP_THRESHOLD then
      merge_loop cur_start (max cur_end e.norm_end) (cur_entries ++ [e]) rest
    else
      (cur_start, cur_end, cur_entries) :: merge_loop e.norm_start e.norm_end [e] rest

/-- `merge_norm_ranges`: sort by `norm_start` and merge entries into runs
`(norm_start, norm_end, entries_in_range)`. -/
def merge_norm_ranges (entries : List StoryEntry) : List (ℚ × ℚ × List StoryEntry) :=
  match Overlaps.sortAscBy (fun e : StoryEntry => e.norm_start) entries with
  | [] => []
  | e :: rest => merge_loop e.norm_start e.norm_end [e] rest

/-- The consolidated entry built from one merged run in `consolidate_group`:
representative is the first highest-scoring entry (`max(..., key=score)`),
the TDK range is the union of the run's TDK ranges, and the confidence is
re-derived from the best score. -/
def span_of_run (r : ℚ × ℚ × List StoryEntry) : StoryEntry :=
  match r.2.2 with
  | [] => default
  | h :: t =>
    let best := t.foldl (fun b e => if b.score < e.score then e else b) h
    { topic := best.topic,
      confidence :=
        if 9 ≤ best.score then "HIGH" else if 7 ≤ best.score then "MEDIUM" else "LOW",
      score := best.score,
      norm_start := r.1, norm_end := r.2.1,
      tdk_start := t.foldl (fun a e => min a e.tdk_start) h.tdk_start,
      tdk_end := t.foldl (fun a e => max a e.tdk_end) h.tdk_end,
      norm_preview := best.norm_preview, tdk_preview := best.tdk_preview }

/-- `consolidate_group`: a singleton group is returned unchanged (early
`if len(group) == 1: return group`); otherwise each merged Norm run becomes
one consolidated entry. -/
def consolidate_group (group : List StoryEntry) : List StoryEntry :=
  if group.length = 1 then group
  else (merge_norm_ranges group).map span_of_run

/-- `consolidate_all`: group by overlapping TDK ranges, consolidate each
group, and sort the result by `norm_start`. -/
def consolidate_all (entries : List StoryEntry) : List StoryEntry :=
  Overlaps.sortAscBy (fun e : StoryEntry => e.norm_start)
    (((group_by_tdk_overlap entries).map consolidate_group).flatten)

end Consolidate


/-! ### Concrete data used to instantiate the theorems -/

namespace Overlaps

/-- A fixed window used as payload in concrete phase-3 runs. -/
def exampleWindow : Window :=
  { recording := "Norm_red", start := 0, stop := 90,
    text := "sample window text", topics := "sample topics", window_idx := 0 }

/-- A constant window index map. -/
def exampleWindowMap : ℕ → Window := fun _ => exampleWindow

/-- A two-column similarity matrix whose second column dominates the
first, so the sorted candidate list starts with the higher value. -/
def simTwo : ℕ → ℕ → ℚ := fun _ j => if j = 0 then 1 else 2

/-- A verification oracle that always answers `15`. -/
def respondFifteen : ℕ → ℕ → Option String := fun _ _ => some "15"

/-- A deterministic verification score of 9 for every pair. -/
def scoreNine : ℕ → ℕ → ℕ := fun _ _ => 9

/-- 160 characters of content, comfortably above `MIN_TEXT_LENGTH`. -/
def longText : String := String.mk (List.replicate 160 'a')

/-- A transcript with one five-minute segment of long text. -/
def exampleTranscript : List Seg := [{ start := 0, stop := 300, text := longText }]

end Overlaps

namespace Consolidate

/-- Two matches sharing one TDK range but with Norm ranges too far apart
to merge: consolidation turns them into two spans with identical
`span_b`. -/
def entryA1 : StoryEntry :=
  { topic := "story A", confidence := "HIGH", score := 9,
    norm_start := 0, norm_end := 90, tdk_start := 0, tdk_end := 90,
    norm_preview := "", tdk_preview := "" }

def entryA2 : StoryEntry :=
  { topic := "story A again", confidence := "HIGH", score := 9,
    norm_start := 1000, norm_end := 1090, tdk_start := 0, tdk_end := 90,
    norm_preview := "", tdk_preview := "" }

/-- A high-scoring entry whose stored confidence does not match its score;
singleton groups are returned unchanged by `consolidate_group`. -/
def singletonEntry : StoryEntry :=
  { topic := "left alone", confidence := "LOW", score := 10,
    norm_start := 0, norm_end := 90, tdk_start := 0, tdk_end := 90,
    norm_preview := "", tdk_preview := "" }

/-- Three adjacent accepted matches on overlapping TDK ranges
(the spec's Scenario C). -/
def adjacent1 : StoryEntry :=
  { topic := "tA", confidence := "MEDIUM", score := 8,
    norm_start := 0, norm_end := 90, tdk_start := 0, tdk_end := 90,
    norm_preview := "pA", tdk_preview := "pB" }

def adjacent2 : StoryEntry :=
  { topic := "tB", confidence := "HIGH", score := 9,
    norm_start := 45, norm_end := 135, tdk_start := 45, tdk_end := 135,
    norm_preview := "pC", tdk_preview := "pD" }

def adjacent3 : StoryEntry :=
  { topic := "tC", confidence := "MEDIUM", score := 8,
    norm_start := 90, norm_end := 180, tdk_start := 80, tdk_end := 170,
    norm_preview := "pE", tdk_preview := "pF" }

/-- The single span the three adjacent matches collapse into. -/
def scenarioCSpan : StoryEntry :=
  { topic := "tB", confidence := "HIGH", score := 9,
    norm_start := 0, norm_end := 180, tdk_start := 0, tdk_end := 170,
    norm_preview := "pC", tdk_preview := "pD" }

/-- The spec's Scenario D entry: score 6 with a 2400-second midpoint
offset between the Norm and TDK ranges. -/
def divergentEntry : StoryEntry :=
  { topic := "d", confidence := "LOW", score := 6,
    norm_start := 0, norm_end := 200, tdk_start := 2400, tdk_end := 2600,
    norm_preview := "", tdk_preview := "" }

/-- A wide match and a narrow match with the same `tdk_start`: the 29s TDK
overlap is below the 30s grouping threshold, so they stay separate spans,
and the narrow match's ranges are contained in both output spans. -/
def wideEntry : StoryEntry :=
  { topic := "big", confidence := "HIGH", score := 9,
    norm_start := 0, norm_end := 200, tdk_start := 100, tdk_end := 1000,
    norm_preview := "", tdk_preview := "" }

def narrowEntry : StoryEntry :=
  { topic := "small", confidence := "HIGH", score := 9,
    norm_start := 0, norm_end := 90, tdk_start := 100, tdk_end := 129,
    norm_preview := "", tdk_preview := "" }

end Consolidate

/-! ### Lemmas about the stable sorts -/

namespace Overlaps

theorem insertAscBy_perm {α : Type} (key : α → ℚ) (x : α) (l : List α) :
    List.Perm (insertAscBy key x l) (x :: l) := by
  induction l with
  | nil => exact List.Perm.refl _
  | cons y ys ih =>
    by_cases hk : key y ≤ key x
    · simp only [insertAscBy, if_pos hk]
      exact (ih.cons y).trans (List.Perm.swap x y ys)
    · simp only [insertAscBy, if_neg hk]
      exact List.Perm.refl _

theorem sortAscBy_foldl_perm {α : Type} (key : α → ℚ) (l acc : List α) :
    List.Perm (l.foldl (fun acc x => insertAscBy key x acc) acc) (acc ++ l) := by
  induction l generalizing acc with
  | nil => simp
  | cons x xs ih =>
    refine (ih (insertAscBy key x acc)).trans ?_
    refine (((insertAscBy_perm key x acc).append_right xs).trans ?_)
    exact List.perm_middle.symm

theorem sortAscBy_perm {α : Type} (key : α → ℚ) (l : List α) :
    List.Perm (sortAscBy key l) l := by
  simpa using sortAscBy_foldl_perm key l []

theorem pairwise_insertAscBy {α : Type} (key : α → ℚ) (x : α) (l : List α)
    (h : l.Pairwise (fun a b => key a ≤ key b)) :
    (insertAscBy key x l).Pairwise (fun a b => key a ≤ key b) := by
  induction l with
  | nil => simp [insertAscBy]
  | cons y ys ih =>
    rcases List.pairwise_cons.mp h with ⟨hy, hys⟩
    by_cases hk : key y ≤ key x
    · simp only [insertAscBy, if_pos hk]
      refine List.pairwise_cons.mpr ⟨?_, ih hys⟩
      intro z hz
      rcases List.mem_cons.mp ((insertAscBy_perm key x ys).mem_iff.mp hz) with hz | hz
      · exact hz ▸ hk
      · exact hy z hz
    · simp only [insertAscBy, if_neg hk]
      refine List.pairwise_cons.mpr ⟨?_, h⟩
      intro z hz
      rcases List.mem_cons.mp hz with hz | hz
      · exact hz ▸ le_of_not_le hk
      · exact (le_of_not_le hk).trans (hy z hz)

theorem sortAscBy_foldl_sorted {α : Type} (key : α → ℚ) (l acc : List α)
    (h : acc.Pairwise (fun a b => key a ≤ key b)) :
    (l.foldl (fun acc x => insertAscBy key x acc) acc).Pairwise (fun a b => key a ≤ key b) := by
  induction l generalizing acc with
  | nil => exact h
  | cons x xs ih => exact ih _ (pairwise_insertAscBy key x acc h)

theorem sortAscBy_sorted {α : Type} (key : α → ℚ) (l : List α) :
    (sortAscBy key l).Pairwise (fun a b => key a ≤ key b) :=
  sortAscBy_foldl_sorted key l [] (List.Pairwise.nil)

theorem insertDescBy_perm {α : Type} (key : α → ℚ) (x : α) (l : List α) :
    List.Perm (insertDescBy key x l) (x :: l) := by
  induction l with
  | nil => exact List.Perm.refl _
  | cons y ys ih =>
    by_cases hk : key x ≤ key y
    · simp only [insertDescBy, if_pos hk]
      exact (ih.cons y).trans (List.Perm.swap x y ys)
    · simp only [insertDescBy, if_neg hk]
      exact List.Perm.refl _

theorem sortDescBy_foldl_perm {α : Type} (key : α → ℚ) (l acc : List α) :
    List.Perm (l.foldl (fun acc x => insertDescBy key x acc) acc) (acc ++ l) := by
  induction l generalizing acc with
  | nil => simp
  | cons x xs ih =>
    refine (ih (insertDescBy key x acc)).trans ?_
    refine (((insertDescBy_perm key x acc).append_right xs).trans ?_)
    exact List.perm_middle.symm

theorem sortDescBy_perm {α : Type} (key : α → ℚ) (l : List α) :
    List.Perm (sortDescBy key l) l := by
  simpa using sortDescBy_foldl_perm key l []

theorem pairwise_insertDescBy {α : Type} (key : α → ℚ) (x : α) (l : List α)
    (h : l.Pairwise (fun a b => key b ≤ key a)) :
    (insertDescBy key x l).Pairwise (fun a b => key b ≤ key a) := by
  induction l with
  | nil => simp [insertDescBy]
  | cons y ys ih =>
    rcases List.pairwise_cons.mp h with ⟨hy, hys⟩
    by_cases hk : key x ≤ key y
    · simp only [insertDescBy, if_pos hk]
      refine List.pairwise_cons.mpr ⟨?_, ih hys⟩
      intro z hz
      rcases List.mem_cons.mp ((insertDescBy_perm key x ys).mem_iff.mp hz) with hz | hz
      · exact hz ▸ hk
      · exact hy z hz
    · simp only [insertDescBy, if_neg hk]
      refine List.pairwise_cons.mpr ⟨?_, h⟩
      intro z hz
      rcases List.mem_cons.mp hz with hz | hz
      · exact hz ▸ le_of_not_le hk
      · exact (hy z hz).trans (le_of_not_le hk)

theorem sortDescBy_foldl_sorted {α : Type} (key : α → ℚ) (l acc : List α)
    (h : acc.Pairwise (fun a b => key b ≤ key a)) :
    (l.foldl (fun acc x => insertDescBy key x acc) acc).Pairwise (fun a b => key b ≤ key a) := by
  induction l generalizing acc with
  | nil => exact h
  | cons x xs ih => exact ih _ (pairwise_insertDescBy key x acc h)

theorem sortDescBy_sorted {α : Type} (key : α → ℚ) (l : List α) :
    (sortDescBy key l).Pairwise (fun a b => key b ≤ key a) :=
  sortDescBy_foldl_sorted key l [] (List.Pairwise.nil)

end Overlaps

/-! ### Lemmas about candidate generation (phase 2) -/

namespace Overlaps

theorem length_filterMap_threshold_mono (sim : ℕ → ℕ → ℚ) (i : ℕ) {t1 t2 : ℚ} (h : t1 ≤ t2)
    (l : List ℕ) :
    (l.filterMap (fun j => if t2 ≤ sim i j then some (i, j, sim i j) else none)).length ≤
      (l.filterMap (fun j => if t1 ≤ sim i j then some (i, j, sim i j) else none)).length := by
  induction l with
  | nil => simp
  | cons j js ih =>
    by_cases h2 : t2 ≤ sim i j
    · rw [List.filterMap_cons, List.filterMap_cons, if_pos h2, if_pos (h.trans h2)]
      simpa using ih
    · rw [List.filterMap_cons, if_neg h2, List.filterMap_cons]
      by_cases h1 : t1 ≤ sim i j
      · rw [if_pos h1]
        exact ih.trans (by simp)
      · rw [if_neg h1]
        exact ih

theorem length_flatten_map_mono {β : Type} (l : List ℕ) (f g : ℕ → List β)
    (h : ∀ i, (f i).length ≤ (g i).length) :
    ((l.map f).flatten).length ≤ ((l.map g).flatten).length := by
  induction l with
  | nil => simp
  | cons x xs ih =>
    simp only [List.map_cons, List.flatten_cons, List.length_append]
    exact Nat.add_le_add (h x) ih

theorem length_phase2_candidates_mono (sim : ℕ → ℕ → ℚ) (nNorm nTdk : ℕ) {t1 t2 : ℚ}
    (h : t1 ≤ t2) :
    (phase2_candidates sim nNorm nTdk t2).length ≤
      (phase2_candidates sim nNorm nTdk t1).length := by
  unfold phase2_candidates
  exact length_flatten_map_mono (List.range nNorm) _ _
    (fun i => length_filterMap_threshold_mono sim i h (List.range nTdk))

theorem length_sortDescBy {α : Type} (key : α → ℚ) (l : List α) :
    (sortDescBy key l).length = l.length :=
  (sortDescBy_perm key l).length_eq

theorem length_phase2_fuzzy_match_mono (sim : ℕ → ℕ → ℚ) (nNorm nTdk : ℕ) {t1 t2 : ℚ}
    (h : t1 ≤ t2) (top_k : ℕ) :
    (phase2_fuzzy_match sim nNorm nTdk t2 top_k).length ≤
      (phase2_fuzzy_match sim nNorm nTdk t1 top_k).length := by
  unfold phase2_fuzzy_match
  rw [List.length_take, List.length_take, length_sortDescBy, length_sortDescBy]
  exact min_le_min le_rfl (length_phase2_candidates_mono sim nNorm nTdk h)

/-! ### Lemmas about verification (phase 3) -/

/-- Skipping: a candidate whose TDK index is already claimed leaves the
whole state unchanged (in particular nothing is scored or accepted). -/
theorem phase3_step_skip (nw tw : ℕ → Window) (score : ℕ → ℕ → ℕ) (th : ℕ)
    (st : Phase3State) (c : ℕ × ℕ × ℚ) (h : c.2.1 ∈ st.matched_tdk) :
    phase3_step nw tw score th st c = st := by
  simp [phase3_step, h]

/-- The claimed set after folding over `cands`: a TDK index is claimed at
the end exactly when it was claimed initially or some candidate referencing
it scores at least the threshold. -/
theorem phase3_foldl_matched_iff (nw tw : ℕ → Window) (score : ℕ → ℕ → ℕ) (th : ℕ)
    (cands : List (ℕ × ℕ × ℚ)) (st : Phase3State) (j : ℕ) :
    j ∈ (cands.foldl (phase3_step nw tw score th) st).matched_tdk ↔
      j ∈ st.matched_tdk ∨ ∃ c ∈ cands, c.2.1 = j ∧ th ≤ score c.1 c.2.1 := by
  induction cands generalizing st with
  | nil => simp
  | cons c cs ih =>
    rw [List.foldl_cons, ih]
    unfold phase3_step
    by_cases hc : c.2.1 ∈ st.matched_tdk
    · rw [if_pos hc]
      constructor
      · rintro (hj | hj)
        · exact Or.inl hj
        · exact Or.inr ⟨_, by simpa using Or.inr hj.choose_spec.1, hj.choose_spec.2⟩
      · rintro (hj | ⟨d, hd, hdj, hds⟩)
        · exact Or.inl hj
        · rcases List.mem_cons.mp hd with rfl | hd
          · exact Or.inl (hdj ▸ hc)
          · exact Or.inr ⟨d, hd, hdj, hds⟩
    · rw [if_neg hc]
      by_cases hs : th ≤ score c.1 c.2.1
      · simp only [if_pos hs]
        constructor
        · rintro (hj | hj)
          · rcases Finset.mem_insert.mp hj with rfl | hj
            · exact Or.inr ⟨c, List.mem_cons_self c cs, rfl, hs⟩
            · exact Or.inl hj
          · exact Or.inr ⟨_, List.mem_cons_of_mem c hj.choose_spec.1, hj.choose_spec.2⟩
        · rintro (hj | ⟨d, hd, hdj, hds⟩)
          · exact Or.inl (Finset.mem_insert_of_mem hj)
          · rcases List.mem_cons.mp hd with rfl | hd
            · exact Or.inl (hdj ▸ Finset.mem_insert_self _ _)
            · exact Or.inr ⟨d, hd, hdj, hds⟩
      · simp only [if_neg hs]
        constructor
        · rintro (hj | hj)
          · exact Or.inl hj
          · exact Or.inr ⟨_, List.mem_cons_of_mem c hj.choose_spec.1, hj.choose_spec.2⟩
        · rintro (hj | ⟨d, hd, hdj, hds⟩)
          · exact Or.inl hj
          · rcases List.mem_cons.mp hd with rfl | hd
            · exact absurd (hdj ▸ hds) (by simpa [hdj] using hs)
            · exact Or.inr ⟨d, hd, hdj, hds⟩

end Overlaps

namespace Overlaps

/-- Invariants of the phase-3 fold: every accepted candidate's TDK index is
claimed, accepted TDK indices are distinct, the match list is exactly the
image of the accepted candidates, the number of matches equals the number
of claimed TDK indices, and every recorded score meets the threshold. -/
theorem phase3_foldl_invariant (nw tw : ℕ → Window) (score : ℕ → ℕ → ℕ) (th : ℕ)
    (cands : List (ℕ × ℕ × ℚ)) (st : Phase3State)
    (h1 : ∀ c ∈ st.accepted, c.2.1 ∈ st.matched_tdk)
    (h2 : (st.accepted.map (fun c => c.2.1)).Nodup)
    (h3 : st.matchList = st.accepted.map (mkMatch nw tw score))
    (h4 : st.matched_tdk.card = st.matchList.length)
    (h5 : ∀ m ∈ st.matchList, th ≤ m.score) :
    (∀ c ∈ (cands.foldl (phase3_step nw tw score th) st).accepted,
        c.2.1 ∈ (cands.foldl (phase3_step nw tw score th) st).matched_tdk)
    ∧ ((cands.foldl (phase3_step nw tw score th) st).accepted.map (fun c => c.2.1)).Nodup
    ∧ (cands.foldl (phase3_step nw tw score th) st).matchList =
        (cands.foldl (phase3_step nw tw score th) st).accepted.map (mkMatch nw tw score)
    ∧ (cands.foldl (phase3_step nw tw score th) st).matched_tdk.card =
        (cands.foldl (phase3_step nw tw score th) st).matchList.length
    ∧ ∀ m ∈ (cands.foldl (phase3_step nw tw score th) st).matchList, th ≤ m.score := by
  induction cands generalizing st with
  | nil => exact ⟨h1, h2, h3, h4, h5⟩
  | cons c cs ih =>
    rw [List.foldl_cons]
    by_cases hc : c.2.1 ∈ st.matched_tdk
    · rw [phase3_step_skip nw tw score th st c hc]
      exact ih st h1 h2 h3 h4 h5
    · by_cases hs : th ≤ score c.1 c.2.1
      · have hstep : phase3_step nw tw score th st c =
            { matchList := st.matchList ++ [mkMatch nw tw score c],
              matched_tdk := insert c.2.1 st.matched_tdk,
              scored := st.scored ++ [(c.1, c.2.1)],
              accepted := st.accepted ++ [c] } := by
          simp [phase3_step, hc, hs]
        rw [hstep]
        refine ih _ ?_ ?_ ?_ ?_ ?_
        · intro d hd
          rcases List.mem_append.mp hd with hd | hd
          · exact Finset.mem_insert_of_mem (h1 d hd)
          · rcases List.mem_singleton.mp hd with rfl
            exact Finset.mem_insert_self _ _
        · rw [List.map_append, List.nodup_append]
          refine ⟨h2, List.nodup_singleton _, ?_⟩
          intro a ha hb
          rcases List.mem_singleton.mp (by simpa using hb) with rfl
          rcases List.mem_map.mp ha with ⟨d, hd, hdj⟩
          exact hc (hdj ▸ h1 d hd)
        · simp [h3]
        · rw [Finset.card_insert_of_not_mem hc, List.length_append, h4]
          simp
        · intro m hm
          rcases List.mem_append.mp hm with hm | hm
          · exact h5 m hm
          · rcases List.mem_singleton.mp hm with rfl
            exact hs
      · have hstep : phase3_step nw tw score th st c =
            { st with scored := st.scored ++ [(c.1, c.2.1)] } := by
          simp [phase3_step, hc, hs]
        rw [hstep]
        exact ih _ h1 h2 h3 h4 h5

/-- Raising the match threshold can only shrink the claimed TDK set,
pointwise along the candidate scan. -/
theorem phase3_foldl_matched_mono (nw tw : ℕ → Window) (score : ℕ → ℕ → ℕ)
    {th1 th2 : ℕ} (h : th1 ≤ th2) (cands : List (ℕ × ℕ × ℚ)) (st1 st2 : Phase3State)
    (hsub : st2.matched_tdk ⊆ st1.matched_tdk) :
    (cands.foldl (phase3_step nw tw score th2) st2).matched_tdk ⊆
      (cands.foldl (phase3_step nw tw score th1) st1).matched_tdk := by
  induction cands generalizing st1 st2 with
  | nil => exact hsub
  | cons c cs ih =>
    rw [List.foldl_cons, List.foldl_cons]
    by_cases hc2 : c.2.1 ∈ st2.matched_tdk
    · rw [phase3_step_skip nw tw score th2 st2 c hc2,
        phase3_step_skip nw tw score th1 st1 c (hsub hc2)]
      exact ih st1 st2 hsub
    · by_cases hc1 : c.2.1 ∈ st1.matched_tdk
      · rw [phase3_step_skip nw tw score th1 st1 c hc1]
        refine ih st1 _ ?_
        unfold phase3_step
        rw [if_neg hc2]
        by_cases hs2 : th2 ≤ score c.1 c.2.1
        · simp only [if_pos hs2]
          intro x hx
          rcases Finset.mem_insert.mp hx with rfl | hx
          · exact hc1
          · exact hsub hx
        · simp only [if_neg hs2]
          exact hsub
      · unfold phase3_step
        rw [if_neg hc1, if_neg hc2]
        by_cases hs2 : th2 ≤ score c.1 c.2.1
        · rw [if_pos hs2, if_pos (h.trans hs2)]
          exact ih _ _ (by simpa using Finset.insert_subset_insert _ hsub)
        · rw [if_neg hs2]
          by_cases hs1 : th1 ≤ score c.1 c.2.1
          · rw [if_pos hs1]
            refine ih _ _ ?_
            simp only
            exact hsub.trans (Finset.subset_insert _ _)
          · rw [if_neg hs1]
            exact ih _ _ (by simpa using hsub)

end Overlaps

namespace Overlaps

/-- Soundness of the windowing loop: every emitted window sits at an exact
multiple of the step past the loop's starting time, lies below the time
bound, carries the stripped text of its range, and passed the emission
test. -/
theorem create_windows_loop_mem (transcript : List Seg) (nm : String) (total dur step : ℚ) :
    ∀ (fuel : ℕ) (s : ℚ) (idx : ℕ),
      ∀ w ∈ create_windows_loop transcript nm total dur step fuel s idx,
        (∃ j : ℕ, j < fuel ∧ w.start = s + (j : ℚ) * step) ∧ w.start < total
          ∧ w.text = strip (get_text_in_range transcript w.start (min (w.start + dur) total))
          ∧ window_text_ok w.text = true := by
  intro fuel
  induction fuel with
  | zero => intro s idx w hw; simp [create_windows_loop] at hw
  | succ fuel ih =>
    intro s idx w hw
    rw [create_windows_loop] at hw
    by_cases hlt : s < total
    · rw [if_pos hlt] at hw
      simp only at hw
      by_cases hok :
          window_text_ok (strip (get_text_in_range transcript s (min (s + dur) total))) = true
      · rw [if_pos hok] at hw
        rcases List.mem_cons.mp hw with rfl | hw
        · refine ⟨⟨0, Nat.succ_pos fuel, by simp⟩, hlt, by simp, hok⟩
        · rcases ih (s + step) (idx + 1) w hw with ⟨⟨j, hj, hws⟩, h2, h3, h4⟩
          refine ⟨⟨j + 1, Nat.succ_lt_succ hj, ?_⟩, h2, h3, h4⟩
          rw [hws]
          push_cast
          ring
      · rw [if_neg hok] at hw
        rcases ih (s + step) idx w hw with ⟨⟨j, hj, hws⟩, h2, h3, h4⟩
        refine ⟨⟨j + 1, Nat.succ_lt_succ hj, ?_⟩, h2, h3, h4⟩
        rw [hws]
        push_cast
        ring
    · rw [if_neg hlt] at hw
      simp at hw

/-- Completeness of the windowing loop: given a positive step and enough
fuel, every stepped position below the time bound whose stripped text
passes the emission test produces a window at exactly that position. -/
theorem create_windows_loop_complete (transcript : List Seg) (nm : String)
    (total dur step : ℚ) (hstep : 0 < step) :
    ∀ (fuel k : ℕ) (s : ℚ) (idx : ℕ), k < fuel →
      s + (k : ℚ) * step < total →
      window_text_ok (strip (get_text_in_range transcript (s + (k : ℚ) * step)
        (min (s + (k : ℚ) * step + dur) total))) = true →
      ∃ w ∈ create_windows_loop transcript nm total dur step fuel s idx,
        w.start = s + (k : ℚ) * step := by
  intro fuel
  induction fuel with
  | zero => intro k s idx hk; exact absurd hk (Nat.not_lt_zero k)
  | succ fuel ih =>
    intro k s idx hk hlt hok
    cases k with
    | zero =>
      have hs : s < total := by simpa using hlt
      have hok0 :
          window_text_ok (strip (get_text_in_range transcript s (min (s + dur) total))) = true := by
        simpa using hok
      rw [create_windows_loop, if_pos hs]
      simp only [hok0, if_pos]
      exact ⟨_, List.mem_cons_self _ _, by simp⟩
    | succ k =>
      have hcast : s + ((k : ℚ) + 1) * step = (s + step) + (k : ℚ) * step := by ring
      have hlt' : (s + step) + (k : ℚ) * step < total := by
        rw [← hcast]; push_cast at hlt ⊢; exact hlt
      have hok' : window_text_ok (strip (get_text_in_range transcript ((s + step) + (k : ℚ) * step)
          (min ((s + step) + (k : ℚ) * step + dur) total))) = true := by
        rw [← hcast]; push_cast at hok ⊢; exact hok
      have hs : s < total := by
        have hpos : 0 < ((k : ℚ) + 1) * step :=
          mul_pos (by positivity) hstep
        push_cast at hlt
        linarith
      rw [create_windows_loop, if_pos hs]
      simp only
      by_cases hok0 :
          window_text_ok (strip (get_text_in_range transcript s (min (s + dur) total))) = true
      · rw [if_pos hok0]
        rcases ih k (s + step) (idx + 1) (Nat.lt_of_succ_lt_succ hk) hlt' hok' with ⟨w, hw, hws⟩
        refine ⟨w, List.mem_cons_of_mem _ hw, ?_⟩
        rw [hws]
        push_cast
        ring
      · rw [if_neg hok0]
        rcases ih k (s + step) idx (Nat.lt_of_succ_lt_succ hk) hlt' hok' with ⟨w, hw, hws⟩
        refine ⟨w, hw, ?_⟩
        rw [hws]
        push_cast
        ring

end Overlaps

/-! ### Lemmas about consolidation -/

namespace Consolidate

theorem foldl_min_tdk_le (t : List StoryEntry) (a : ℚ) :
    (t.foldl (fun a e => min a e.tdk_start) a) ≤ a ∧
      ∀ e ∈ t, (t.foldl (fun a e => min a e.tdk_start) a) ≤ e.tdk_start := by
  induction t generalizing a with
  | nil => exact ⟨le_rfl, by simp⟩
  | cons e es ih =>
    rcases ih (min a e.tdk_start) with ⟨h1, h2⟩
    refine ⟨h1.trans (min_le_left _ _), ?_⟩
    intro x hx
    rcases List.mem_cons.mp hx with rfl | hx
    · exact h1.trans (min_le_right _ _)
    · exact h2 x hx

theorem foldl_min_tdk_attained (t : List StoryEntry) (a : ℚ) :
    (t.foldl (fun a e => min a e.tdk_start) a) = a ∨
      ∃ e ∈ t, (t.foldl (fun a e => min a e.tdk_start) a) = e.tdk_start := by
  induction t generalizing a with
  | nil => exact Or.inl rfl
  | cons e es ih =>
    rcases ih (min a e.tdk_start) with h | ⟨x, hx, hxe⟩
    · rcases le_total a e.tdk_start with hle | hle
      · exact Or.inl (h.trans (min_eq_left hle))
      · exact Or.inr ⟨e, List.mem_cons_self _ _, h.trans (min_eq_right hle)⟩
    · exact Or.inr ⟨x, List.mem_cons_of_mem _ hx, hxe⟩

theorem foldl_max_tdk_le (t : List StoryEntry) (a : ℚ) :
    a ≤ (t.foldl (fun a e => max a e.tdk_end) a) ∧
      ∀ e ∈ t, e.tdk_end ≤ (t.foldl (fun a e => max a e.tdk_end) a) := by
  induction t generalizing a with
  | nil => exact ⟨le_rfl, by simp⟩
  | cons e es ih =>
    rcases ih (max a e.tdk_end) with ⟨h1, h2⟩
    refine ⟨(le_max_left _ _).trans h1, ?_⟩
    intro x hx
    rcases List.mem_cons.mp hx with rfl | hx
    · exact (le_max_right _ _).trans h1
    · exact h2 x hx

theorem foldl_max_tdk_attained (t : List StoryEntry) (a : ℚ) :
    (t.foldl (fun a e => max a e.tdk_end) a) = a ∨
      ∃ e ∈ t, (t.foldl (fun a e => max a e.tdk_end) a) = e.tdk_end := by
  induction t generalizing a with
  | nil => exact Or.inl rfl
  | cons e es ih =>
    rcases ih (max a e.tdk_end) with h | ⟨x, hx, hxe⟩
    · rcases le_total a e.tdk_end with hle | hle
      · exact Or.inr ⟨e, List.mem_cons_self _ _, h.trans (max_eq_right hle)⟩
      · exact Or.inl (h.trans (max_eq_left hle))
    · exact Or.inr ⟨x, List.mem_cons_of_mem _ hx, hxe⟩

theorem foldl_best_mem (t : List StoryEntry) (b : StoryEntry) :
    (t.foldl (fun b e => if b.score < e.score then e else b) b) ∈ b :: t := by
  induction t generalizing b with
  | nil => exact List.mem_singleton.mpr rfl
  | cons e es ih =>
    rw [List.foldl_cons]
    by_cases h : b.score < e.score
    · rw [if_pos h]
      rcases List.mem_cons.mp (ih e) with h2 | h2
      · rw [h2]
        exact List.mem_cons_of_mem _ (List.mem_cons_self _ _)
      · exact List.mem_cons_of_mem _ (List.mem_cons_of_mem _ h2)
    · rw [if_neg h]
      rcases List.mem_cons.mp (ih b) with h2 | h2
      · rw [h2]
        exact List.mem_cons_self _ _
      · exact List.mem_cons_of_mem _ (List.mem_cons_of_mem _ h2)

theorem foldl_best_ge (t : List StoryEntry) (b : StoryEntry) :
    b.score ≤ (t.foldl (fun b e => if b.score < e.score then e else b) b).score ∧
      ∀ e ∈ t, e.score ≤ (t.foldl (fun b e => if b.score < e.score then e else b) b).score := by
  induction t generalizing b with
  | nil => exact ⟨le_rfl, by simp⟩
  | cons e es ih =>
    rw [List.foldl_cons]
    by_cases h : b.score < e.score
    · rw [if_pos h]
      rcases ih e with ⟨h1, h2⟩
      refine ⟨h.le.trans h1, ?_⟩
      intro x hx
      rcases List.mem_cons.mp hx with rfl | hx
      · exact h1
      · exact h2 x hx
    · rw [if_neg h]
      rcases ih b with ⟨h1, h2⟩
      refine ⟨h1, ?_⟩
      intro x hx
      rcases List.mem_cons.mp hx with rfl | hx
      · exact (le_of_not_lt h).trans h1
      · exact h2 x hx

theorem group_loop_cover (rest : List StoryEntry) :
    ∀ (g0 ce : ℚ) (cg : List StoryEntry) (x : StoryEntry),
      x ∈ cg ∨ x ∈ rest → ∃ g ∈ group_loop g0 ce cg rest, x ∈ g := by
  induction rest with
  | nil =>
    intro g0 ce cg x hx
    rcases hx with hx | hx
    · exact ⟨cg, List.mem_singleton.mpr rfl, hx⟩
    · simp at hx
  | cons e rest ih =>
    intro g0 ce cg x hx
    rw [group_loop]
    by_cases h : ranges_overlap e.tdk_start e.tdk_end g0 ce 30
    · rw [if_pos h]
      refine ih g0 (max ce e.tdk_end) (cg ++ [e]) x ?_
      rcases hx with hx | hx
      · exact Or.inl (List.mem_append.mpr (Or.inl hx))
      · rcases List.mem_cons.mp hx with rfl | hx
        · exact Or.inl (List.mem_append.mpr (Or.inr (List.mem_singleton.mpr rfl)))
        · exact Or.inr hx
    · rw [if_neg h]
      rcases hx with hx | hx
      · exact ⟨cg, List.mem_cons_self _ _, hx⟩
      · rcases List.mem_cons.mp hx with rfl | hx
        · rcases ih x.tdk_start x.tdk_end [x] x (Or.inl (List.mem_singleton.mpr rfl)) with
            ⟨g, hg, hxg⟩
          exact ⟨g, List.mem_cons_of_mem _ hg, hxg⟩
        · rcases ih e.tdk_start e.tdk_end [e] x (Or.inr hx) with ⟨g, hg, hxg⟩
          exact ⟨g, List.mem_cons_of_mem _ hg, hxg⟩

theorem merge_loop_cover (rest : List StoryEntry) :
    ∀ (cs ce : ℚ) (es : List StoryEntry) (x : StoryEntry),
      x ∈ es ∨ x ∈ rest → ∃ r ∈ merge_loop cs ce es rest, x ∈ r.2.2 := by
  induction rest with
  | nil =>
    intro cs ce es x hx
    rcases hx with hx | hx
    · exact ⟨(cs, ce, es), List.mem_singleton.mpr rfl, hx⟩
    · simp at hx
  | cons e rest ih =>
    intro cs ce es x hx
    rw [merge_loop]
    by_cases h : e.norm_start ≤ ce + NORM_GAP_THRESHOLD
    · rw [if_pos h]
      refine ih cs (max ce e.norm_end) (es ++ [e]) x ?_
      rcases hx with hx | hx
      · exact Or.inl (List.mem_append.mpr (Or.inl hx))
      · rcases List.mem_cons.mp hx with rfl | hx
        · exact Or.inl (List.mem_append.mpr (Or.inr (List.mem_singleton.mpr rfl)))
        · exact Or.inr hx
    · rw [if_neg h]
      rcases hx with hx | hx
      · exact ⟨(cs, ce, es), List.mem_cons_self _ _, hx⟩
      · rcases List.mem_cons.mp hx with rfl | hx
        · rcases ih x.norm_start x.norm_end [x] x (Or.inl (List.mem_singleton.mpr rfl)) with
            ⟨r, hr, hxr⟩
          exact ⟨r, List.mem_cons_of_mem _ hr, hxr⟩
        · rcases ih e.norm_start e.norm_end [e] x (Or.inr hx) with ⟨r, hr, hxr⟩
          exact ⟨r, List.mem_cons_of_mem _ hr, hxr⟩

end Consolidate

namespace Consolidate

/-- Run integrity for the merging loop: every produced run is nonempty,
its entries come from the current run or the remaining input, its recorded
range bounds all its entries' Norm ranges, and both bounds are attained. -/
theorem merge_loop_bounds (rest : List StoryEntry) :
    ∀ (cs ce : ℚ) (es : List StoryEntry),
      (∀ x ∈ es, cs ≤ x.norm_start ∧ x.norm_end ≤ ce) →
      es ≠ [] →
      (∃ x ∈ es, x.norm_start = cs) →
      (∃ x ∈ es, x.norm_end = ce) →
      (∀ x ∈ rest, cs ≤ x.norm_start) →
      rest.Pairwise (fun a b => a.norm_start ≤ b.norm_start) →
      ∀ r ∈ merge_loop cs ce es rest,
        r.2.2 ≠ [] ∧ (∀ x ∈ r.2.2, x ∈ es ∨ x ∈ rest)
          ∧ (∀ x ∈ r.2.2, r.1 ≤ x.norm_start ∧ x.norm_end ≤ r.2.1)
          ∧ (∃ x ∈ r.2.2, x.norm_start = r.1) ∧ (∃ x ∈ r.2.2, x.norm_end = r.2.1) := by
  induction rest with
  | nil =>
    intro cs ce es hb hne hcs hce _ _ r hr
    rcases List.mem_singleton.mp hr with rfl
    exact ⟨hne, fun x hx => Or.inl hx, hb, hcs, hce⟩
  | cons e rest ih =>
    intro cs ce es hb hne hcs hce hrest hsorted r hr
    rw [merge_loop] at hr
    rcases List.pairwise_cons.mp hsorted with ⟨hhead, htail⟩
    by_cases h : e.norm_start ≤ ce + NORM_GAP_THRESHOLD
    · rw [if_pos h] at hr
      have hb' : ∀ x ∈ es ++ [e], cs ≤ x.norm_start ∧ x.norm_end ≤ max ce e.norm_end := by
        intro x hx
        rcases List.mem_append.mp hx with hx | hx
        · exact ⟨(hb x hx).1, (hb x hx).2.trans (le_max_left _ _)⟩
        · rcases List.mem_singleton.mp hx with rfl
          exact ⟨hrest x (List.mem_cons_self _ _), le_max_right _ _⟩
      have hcs' : ∃ x ∈ es ++ [e], x.norm_start = cs := by
        rcases hcs with ⟨x, hx, hxs⟩
        exact ⟨x, List.mem_append.mpr (Or.inl hx), hxs⟩
      have hce' : ∃ x ∈ es ++ [e], x.norm_end = max ce e.norm_end := by
        rcases le_total e.norm_end ce with hle | hle
        · rcases hce with ⟨x, hx, hxs⟩
          exact ⟨x, List.mem_append.mpr (Or.inl hx), by rw [hxs, max_eq_left hle]⟩
        · exact ⟨e, List.mem_append.mpr (Or.inr (List.mem_singleton.mpr rfl)),
            (max_eq_right hle).symm⟩
      have hrest' : ∀ x ∈ rest, cs ≤ x.norm_start :=
        fun x hx => hrest x (List.mem_cons_of_mem _ hx)
      rcases ih cs (max ce e.norm_end) (es ++ [e]) hb' (by simp) hcs' hce' hrest' htail r hr with
        ⟨q1, q2, q3, q4, q5⟩
      refine ⟨q1, ?_, q3, q4, q5⟩
      intro x hx
      rcases q2 x hx with hx2 | hx2
      · rcases List.mem_append.mp hx2 with hx2 | hx2
        · exact Or.inl hx2
        · rcases List.mem_singleton.mp hx2 with rfl
          exact Or.inr (List.mem_cons_self _ _)
      · exact Or.inr (List.mem_cons_of_mem _ hx2)
    · rw [if_neg h] at hr
      rcases List.mem_cons.mp hr with rfl | hr
      · exact ⟨hne, fun x hx => Or.inl hx, hb, hcs, hce⟩
      · have hb' : ∀ x ∈ [e], e.norm_start ≤ x.norm_start ∧ x.norm_end ≤ e.norm_end := by
          intro x hx
          rcases List.mem_singleton.mp hx with rfl
          exact ⟨le_rfl, le_rfl⟩
        rcases ih e.norm_start e.norm_end [e] hb' (by simp)
          ⟨e, List.mem_singleton.mpr rfl, rfl⟩ ⟨e, List.mem_singleton.mpr rfl, rfl⟩
          hhead htail r hr with ⟨q1, q2, q3, q4, q5⟩
        refine ⟨q1, ?_, q3, q4, q5⟩
        intro x hx
        rcases q2 x hx with hx2 | hx2
        · rcases List.mem_singleton.mp hx2 with rfl
          exact Or.inr (List.mem_cons_self _ _)
        · exact Or.inr (List.mem_cons_of_mem _ hx2)

end Consolidate

namespace Consolidate

/-- Separation for the merging loop: successive runs' Norm ranges are more
than `NORM_GAP_THRESHOLD` apart, and every run except the current one
starts at some remaining entry's `norm_start`. -/
theorem merge_loop_sep (rest : List StoryEntry) :
    ∀ (cs ce : ℚ) (es : List StoryEntry),
      rest.Pairwise (fun a b => a.norm_start ≤ b.norm_start) →
      (merge_loop cs ce es rest).Pairwise
          (fun r q => r.2.1 + NORM_GAP_THRESHOLD < q.1)
        ∧ ∀ r ∈ merge_loop cs ce es rest, r.1 = cs ∨ ∃ x ∈ rest, r.1 = x.norm_start := by
  induction rest with
  | nil =>
    intro cs ce es _
    refine ⟨List.pairwise_singleton _ _, ?_⟩
    intro r hr
    rcases List.mem_singleton.mp hr with rfl
    exact Or.inl rfl
  | cons e rest ih =>
    intro cs ce es hsorted
    rcases List.pairwise_cons.mp hsorted with ⟨hhead, htail⟩
    rw [merge_loop]
    by_cases h : e.norm_start ≤ ce + NORM_GAP_THRESHOLD
    · rw [if_pos h]
      rcases ih cs (max ce e.norm_end) (es ++ [e]) htail with ⟨p1, p2⟩
      refine ⟨p1, ?_⟩
      intro r hr
      rcases p2 r hr with hr2 | ⟨x, hx, hxs⟩
      · exact Or.inl hr2
      · exact Or.inr ⟨x, List.mem_cons_of_mem _ hx, hxs⟩
    · rw [if_neg h]
      rcases ih e.norm_start e.norm_end [e] htail with ⟨p1, p2⟩
      have hgap : ce + NORM_GAP_THRESHOLD < e.norm_start := lt_of_not_le h
      refine ⟨List.pairwise_cons.mpr ⟨?_, p1⟩, ?_⟩
      · intro q hq
        rcases p2 q hq with hq2 | ⟨x, hx, hxs⟩
        · simpa [hq2] using hgap
        · rw [hxs]
          exact hgap.trans_le (hhead x hx)
      · intro r hr
        rcases List.mem_cons.mp hr with rfl | hr
        · exact Or.inl rfl
        · rcases p2 r hr with hr2 | ⟨x, hx, hxs⟩
          · exact Or.inr ⟨e, List.mem_cons_self _ _, hr2⟩
          · exact Or.inr ⟨x, List.mem_cons_of_mem _ hx, hxs⟩

/-- Field description of the consolidated entry built from a nonempty run:
its Norm range is the run's recorded range, its TDK range bounds all the
run's TDK ranges with both bounds attained, its score is the run's maximal
score with topic and previews from a highest-scoring member, and its
confidence is derived from that score. -/
theorem span_of_run_bounds (r : ℚ × ℚ × List StoryEntry) (hne : r.2.2 ≠ []) :
    (span_of_run r).norm_start = r.1 ∧ (span_of_run r).norm_end = r.2.1
      ∧ (∀ e ∈ r.2.2, (span_of_run r).tdk_start ≤ e.tdk_start
          ∧ e.tdk_end ≤ (span_of_run r).tdk_end ∧ e.score ≤ (span_of_run r).score)
      ∧ (∃ e ∈ r.2.2, e.tdk_start = (span_of_run r).tdk_start)
      ∧ (∃ e ∈ r.2.2, e.tdk_end = (span_of_run r).tdk_end)
      ∧ (∃ b ∈ r.2.2, b.score = (span_of_run r).score ∧ (span_of_run r).topic = b.topic)
      ∧ (span_of_run r).confidence =
          (if 9 ≤ (span_of_run r).score then "HIGH"
            else if 7 ≤ (span_of_run r).score then "MEDIUM" else "LOW") := by
  obtain ⟨ns, ne, es⟩ := r
  cases es with
  | nil => exact absurd rfl hne
  | cons h t =>
    simp only [span_of_run]
    refine ⟨trivial, trivial, ?_, ?_, ?_, ?_, trivial⟩
    · intro e he
      rcases List.mem_cons.mp he with rfl | he
      · exact ⟨(foldl_min_tdk_le t e.tdk_start).1, (foldl_max_tdk_le t e.tdk_end).1,
          (foldl_best_ge t e).1⟩
      · exact ⟨(foldl_min_tdk_le t h.tdk_start).2 e he, (foldl_max_tdk_le t h.tdk_end).2 e he,
          (foldl_best_ge t h).2 e he⟩
    · rcases foldl_min_tdk_attained t h.tdk_start with hmin | ⟨e, he, hes⟩
      · exact ⟨h, List.mem_cons_self _ _, hmin.symm⟩
      · exact ⟨e, List.mem_cons_of_mem _ he, hes.symm⟩
    · rcases foldl_max_tdk_attained t h.tdk_end with hmax | ⟨e, he, hes⟩
      · exact ⟨h, List.mem_cons_self _ _, hmax.symm⟩
      · exact ⟨e, List.mem_cons_of_mem _ he, hes.symm⟩
    · exact ⟨t.foldl (fun b e => if b.score < e.score then e else b) h,
        foldl_best_mem t h, rfl, rfl⟩

end Consolidate

/-! ### Claim theorems -/

section ClaimTheorems

attribute [local semireducible] Rat.add Rat.sub Rat.mul Rat.inv

namespace Overlaps

/-- C1: Greedy exclusivity of the Verifier: a candidate whose `window_b`
(TDK) index is already claimed is skipped with the whole state — including
the log of scored candidates — unchanged; a TDK index is in the final
claimed set exactly when some candidate referencing it scores at least
`match_threshold`; the accepted candidates carry pairwise distinct TDK
indices, and the verified-match list is exactly the image of the accepted
candidates, so no `window_b` identity appears in more than one accepted
match. -/
theorem c1_greedy_exclusivity (nw tw : ℕ → Window) (score : ℕ → ℕ → ℕ) (th : ℕ)
    (cands : List (ℕ × ℕ × ℚ)) :
    (∀ (st : Phase3State) (c : ℕ × ℕ × ℚ), c.2.1 ∈ st.matched_tdk →
        phase3_step nw tw score th st c = st)
    ∧ (∀ j : ℕ, j ∈ (phase3_run nw tw score th cands).matched_tdk ↔
        ∃ c ∈ cands, c.2.1 = j ∧ th ≤ score c.1 c.2.1)
    ∧ ((phase3_run nw tw score th cands).accepted.map (fun c => c.2.1)).Nodup
    ∧ (phase3_run nw tw score th cands).matchList =
        (phase3_run nw tw score th cands).accepted.map (mkMatch nw tw score) := by
  have hinv := phase3_foldl_invariant nw tw score th cands ⟨[], ∅, [], []⟩
    (by simp) (by simp) (by simp) (by simp) (by simp)
  refine ⟨phase3_step_skip nw tw score th, ?_, hinv.2.1, hinv.2.2.1⟩
  intro j
  have h := phase3_foldl_matched_iff nw tw score th cands ⟨[], ∅, [], []⟩ j
  simpa [phase3_run] using h

theorem c1_greedy_exclusivity_witness :
    (0 : ℕ) ∈ (phase3_run exampleWindowMap exampleWindowMap scoreNine 8
        [(0, 0, 1)]).matched_tdk :=
  ((c1_greedy_exclusivity exampleWindowMap exampleWindowMap scoreNine 8 [(0, 0, 1)]).2.1 0).mpr
    ⟨(0, 0, 1), by decide, rfl, by decide⟩

/-- C6: Threshold monotonicity: with fixed windows, similarities and
deterministic verification scores, raising `similarity_threshold` never
increases the candidate count (with `top_k` truncation applied), and
raising `match_threshold` never increases the number of verified
matches produced by the greedy-exclusivity pass. -/
theorem c6_threshold_monotonicity :
    (∀ (sim : ℕ → ℕ → ℚ) (nNorm nTdk : ℕ) (t1 t2 : ℚ) (top_k : ℕ), t1 ≤ t2 →
        (phase2_fuzzy_match sim nNorm nTdk t2 top_k).length ≤
          (phase2_fuzzy_match sim nNorm nTdk t1 top_k).length)
    ∧ (∀ (nw tw : ℕ → Window) (score : ℕ → ℕ → ℕ) (m1 m2 : ℕ)
          (cands : List (ℕ × ℕ × ℚ)), m1 ≤ m2 →
        (phase3_verify_matches nw tw score m2 cands).length ≤
          (phase3_verify_matches nw tw score m1 cands).length) := by
  constructor
  · intro sim nNorm nTdk t1 t2 top_k h
    exact length_phase2_fuzzy_match_mono sim nNorm nTdk h top_k
  · intro nw tw score m1 m2 cands h
    have inv1 := phase3_foldl_invariant nw tw score m1 cands ⟨[], ∅, [], []⟩
      (by simp) (by simp) (by simp) (by simp) (by simp)
    have inv2 := phase3_foldl_invariant nw tw score m2 cands ⟨[], ∅, [], []⟩
      (by simp) (by simp) (by simp) (by simp) (by simp)
    have hsub := phase3_foldl_matched_mono nw tw score h cands
      ⟨[], ∅, [], []⟩ ⟨[], ∅, [], []⟩ (Finset.Subset.refl _)
    have h2 := inv2.2.2.2.1
    have h1 := inv1.2.2.2.1
    unfold phase3_verify_matches phase3_run
    rw [← h1, ← h2]
    exact Finset.card_le_card hsub

theorem c6_threshold_monotonicity_witness :
    ((0 : ℚ) ≤ 1 ∧
      (phase2_fuzzy_match simTwo 1 2 1 500).length ≤
        (phase2_fuzzy_match simTwo 1 2 0 500).length)
    ∧ ((8 : ℕ) ≤ 10 ∧
      (phase3_verify_matches exampleWindowMap exampleWindowMap scoreNine 10
          [(0, 0, 1)]).length ≤
        (phase3_verify_matches exampleWindowMap exampleWindowMap scoreNine 8
          [(0, 0, 1)]).length) :=
  ⟨⟨by decide, c6_threshold_monotonicity.1 simTwo 1 2 0 1 500 (by decide)⟩,
    ⟨by decide, c6_threshold_monotonicity.2 exampleWindowMap exampleWindowMap scoreNine 8 10
      [(0, 0, 1)] (by decide)⟩⟩

/-- C7 counterexample: the Candidate Generator sorts candidates
descending by similarity, so with two candidates of similarity 2 and 1
the list the Verifier consumes is not monotonically non-decreasing. -/
theorem c7_counterexample :
    ¬ List.Pairwise (fun c d : ℕ × ℕ × ℚ => c.2.2 ≤ d.2.2)
        (phase2_fuzzy_match simTwo 1 2 0 500) := by
  decide

/-- C7 (amended): in the candidate list the Verifier consumes, similarity
values are monotonically non-increasing in list order: for positions
`i ≤ j` the similarity at `i` is at least the similarity at `j`. -/
theorem c7_candidates_sorted_descending (sim : ℕ → ℕ → ℚ) (nNorm nTdk : ℕ)
    (similarity_threshold : ℚ) (top_k : ℕ) :
    List.Pairwise (fun c d : ℕ × ℕ × ℚ => d.2.2 ≤ c.2.2)
      (phase2_fuzzy_match sim nNorm nTdk similarity_threshold top_k) :=
  List.Pairwise.sublist (List.take_sublist top_k _)
    (sortDescBy_sorted (fun c : ℕ × ℕ × ℚ => c.2.2)
      (phase2_candidates sim nNorm nTdk similarity_threshold))

end Overlaps

end ClaimTheorems

section ClaimTheoremsB

attribute [local semireducible] Rat.add Rat.sub Rat.mul Rat.inv

set_option maxRecDepth 1000000

namespace Overlaps

/-- C2: Windower emission rule: every emitted window sits at
`min_time + j * (duration - overlap)` for some step count `j` and below
the transcript's time bound, and its stripped text has at least
`MIN_TEXT_LENGTH` characters; moreover (given a positive step and enough
fuel) a window at the `k`-th stepped position appears in the output if and
only if that position is below the time bound and its stripped
concatenated text passes the length test — so skipping a too-short window
still advances the start by the same step, and no window shorter than
`MIN_TEXT_LENGTH` ever appears. -/
theorem c2_window_emission (transcript : List Seg) (nm : String)
    (dur overlap min_time : ℚ) (max_time : Option ℚ) (fuel k : ℕ)
    (htr : transcript ≠ []) (hstep : 0 < dur - overlap) (hk : k < fuel) :
    (∀ w ∈ create_windows transcript nm dur overlap min_time max_time fuel,
        MIN_TEXT_LENGTH ≤ w.text.length
          ∧ w.start < window_total transcript max_time
          ∧ ∃ j : ℕ, w.start = min_time + (j : ℚ) * (dur - overlap))
    ∧ ((∃ w ∈ create_windows transcript nm dur overlap min_time max_time fuel,
          w.start = min_time + (k : ℚ) * (dur - overlap))
        ↔ (min_time + (k : ℚ) * (dur - overlap) < window_total transcript max_time
            ∧ MIN_TEXT_LENGTH ≤ (strip (get_text_in_range transcript
                (min_time + (k : ℚ) * (dur - overlap))
                (min (min_time + (k : ℚ) * (dur - overlap) + dur)
                  (window_total transcript max_time)))).length)) := by
  have hiff : ∀ t : String, window_text_ok t = true ↔ MIN_TEXT_LENGTH ≤ t.length := by
    intro t
    unfold window_text_ok
    simp only [Bool.and_eq_true, decide_eq_true_eq]
    constructor
    · exact fun h => h.2
    · intro h
      refine ⟨?_, h⟩
      intro ht
      rw [ht] at h
      exact absurd h (by decide)
  rw [create_windows, if_neg htr]
  constructor
  · intro w hw
    rcases create_windows_loop_mem transcript nm (window_total transcript max_time) dur
      (dur - overlap) fuel min_time 0 w hw with ⟨⟨j, _, hj⟩, hlt, htext, hok⟩
    have hlen : MIN_TEXT_LENGTH ≤ w.text.length := by
      have h' := hok
      simp only [window_text_ok, Bool.and_eq_true, decide_eq_true_eq] at h'
      exact h'.2
    exact ⟨hlen, hlt, j, hj⟩
  · constructor
    · rintro ⟨w, hw, hws⟩
      rcases create_windows_loop_mem transcript nm (window_total transcript max_time) dur
        (dur - overlap) fuel min_time 0 w hw with ⟨_, hlt, htext, hok⟩
      refine ⟨hws ▸ hlt, ?_⟩
      rw [← hws]
      rw [htext] at hok
      exact (hiff _).mp hok
    · rintro ⟨hlt, hok⟩
      exact create_windows_loop_complete transcript nm (window_total transcript max_time)
        dur (dur - overlap) hstep fuel k min_time 0 hk hlt ((hiff _).mpr hok)

theorem c2_window_emission_witness :
    ∃ w ∈ create_windows exampleTranscript "Norm_red" 90 45 0 none 7,
      w.start = 0 + ((0 : ℕ) : ℚ) * (90 - 45) :=
  (c2_window_emission exampleTranscript "Norm_red" 90 45 0 none 7 0
      (by decide) (by decide) (by decide)).2.mpr ⟨by decide, by decide⟩

/-- C8 counterexample: when the first summarization attempt fails and a
second attempt would have succeeded, the adapter still returns the empty
string — the call is not retried (`call_ollama` makes a single request). -/
theorem c8_no_retry_counterexample :
    call_ollama_first_attempt [none, some "Lindy moved to Canada"] = ""
      ∧ call_ollama_text (some "Lindy moved to Canada") = "Lindy moved to Canada" := by
  constructor
  · decide
  · decide

/-- C8 (amended): a failed summarization call is not retried; the affected
window is left with an empty topics string and topic extraction continues
over the remaining windows — phase 1 always returns one window per input
window, each unchanged except for its `topics` field, so a failure never
aborts the run. -/
theorem c8_failure_continues (service : ℕ → Option String) (windows : List Window) :
    (phase1_extract_topics service windows).length = windows.length
    ∧ ∀ (i : ℕ) (h : i < windows.length)
        (h2 : i < (phase1_extract_topics service windows).length),
        (phase1_extract_topics service windows).get ⟨i, h2⟩ =
            { windows.get ⟨i, h⟩ with topics := call_ollama_text (service i) }
          ∧ (service i = none →
              ((phase1_extract_topics service windows).get ⟨i, h2⟩).topics = "") := by
  have hloop : ∀ (ws : List Window) (base : ℕ),
      (phase1_loop service base ws).length = ws.length ∧
        ∀ (i : ℕ) (h : i < ws.length) (h2 : i < (phase1_loop service base ws).length),
          (phase1_loop service base ws).get ⟨i, h2⟩ =
            { ws.get ⟨i, h⟩ with topics := call_ollama_text (service (base + i)) } := by
    intro ws
    induction ws with
    | nil => intro base; exact ⟨rfl, fun i h => absurd h (Nat.not_lt_zero i)⟩
    | cons w ws ih =>
      intro base
      refine ⟨by simp [phase1_loop, (ih (base + 1)).1], ?_⟩
      intro i h h2
      cases i with
      | zero => simp [phase1_loop]
      | succ i =>
        have hi : i < ws.length := Nat.lt_of_succ_lt_succ h
        have hi2 : i < (phase1_loop service (base + 1) ws).length := by
          rw [(ih (base + 1)).1]; exact hi
        have := (ih (base + 1)).2 i hi hi2
        simpa [phase1_loop, Nat.add_assoc, Nat.add_comm 1 i] using this
  refine ⟨(hloop windows 0).1, ?_⟩
  intro i h h2
  have hget := (hloop windows 0).2 i h (by simpa [phase1_extract_topics] using h2)
  have hget2 : (phase1_extract_topics service windows).get ⟨i, h2⟩ =
      { windows.get ⟨i, h⟩ with topics := call_ollama_text (service i) } := by
    simpa [phase1_extract_topics] using hget
  refine ⟨hget2, ?_⟩
  intro hnone
  rw [hget2, hnone]
  rfl

theorem c8_failure_continues_witness :
    ((phase1_extract_topics (fun _ => none) [exampleWindow]).get ⟨0, by decide⟩).topics = "" :=
  ((c8_failure_continues (fun _ => none) [exampleWindow]).2 0 (by decide) (by decide)).2 rfl

/-- C9 counterexample: the verification score is not clamped to `[0, 10]`:
a service response of `"15"` produces a verified match recording score 15. -/
theorem c9_unclamped_score_counterexample :
    ∃ m ∈ phase3_verify_matches exampleWindowMap exampleWindowMap
        (fun i j => ollama_score (respondFifteen i j)) MATCH_THRESHOLD [(0, 0, 1)],
      10 < m.score := by
  decide

/-- C9 (amended): the score recorded for a candidate is the natural number
parsed from the first word-bounded digit run of the service response;
every score recorded in a `VerifiedMatch` is at least `match_threshold`
(but is not clamped to 10), and a response from which no integer can be
extracted — or a failed call — yields score 0. -/
theorem c9_score_extraction :
    (∀ (nw tw : ℕ → Window) (respond : ℕ → ℕ → Option String) (th : ℕ)
        (cands : List (ℕ × ℕ × ℚ)),
        ∀ m ∈ phase3_verify_matches nw tw (fun i j => ollama_score (respond i j)) th cands,
          th ≤ m.score)
    ∧ (∀ s : String, findNumber (strip s).data false none = none →
        ollama_score (some s) = 0)
    ∧ ollama_score none = 0 := by
  refine ⟨?_, ?_, by decide⟩
  · intro nw tw respond th cands m hm
    have hinv := phase3_foldl_invariant nw tw (fun i j => ollama_score (respond i j)) th cands
      ⟨[], ∅, [], []⟩ (by simp) (by simp) (by simp) (by simp) (by simp)
    exact hinv.2.2.2.2 m hm
  · intro s h
    simp only [ollama_score, call_ollama_number, h]
    decide

theorem c9_score_extraction_witness :
    (8 : ℕ) ≤ (mkMatch exampleWindowMap exampleWindowMap
        (fun i j => ollama_score (respondFifteen i j)) (0, 0, 1)).score :=
  c9_score_extraction.1 exampleWindowMap exampleWindowMap respondFifteen 8 [(0, 0, 1)]
    (mkMatch exampleWindowMap exampleWindowMap
      (fun i j => ollama_score (respondFifteen i j)) (0, 0, 1)) (by decide)

end Overlaps

end ClaimTheoremsB

section ClaimTheoremsC

attribute [local semireducible] Rat.add Rat.sub Rat.mul Rat.inv

set_option maxRecDepth 1000000

namespace Consolidate

/-- C3 counterexample: two matches with the same TDK range but Norm ranges
too far apart to merge become two distinct output spans whose `span_b`
ranges coincide entirely, overlapping by far more than either TDK
tolerance (45s configured, 30s hard-coded): consolidation does not
enforce `span_b` non-overlap. -/
theorem c3_spanb_overlap_counterexample :
    ∃ s ∈ consolidate_all [entryA1, entryA2], ∃ t ∈ consolidate_all [entryA1, entryA2],
      s ≠ t ∧ TDK_OVERLAP_THRESHOLD < min s.tdk_end t.tdk_end - max s.tdk_start t.tdk_start := by
  decide

/-- C3 (amended): the non-overlap consolidation actually enforces is on the
`span_a` (Norm) side, within each group: in the span list produced from one
group, successive spans' Norm ranges are separated by strictly more than
`NORM_GAP_THRESHOLD` seconds (so they never overlap); `span_b` ranges of
distinct spans may coincide entirely. -/
theorem c3_group_span_separation (group : List StoryEntry) :
    List.Pairwise (fun s t => s.norm_end + NORM_GAP_THRESHOLD < t.norm_start)
      (consolidate_group group) := by
  unfold consolidate_group
  by_cases hlen : group.length = 1
  · rw [if_pos hlen]
    rcases List.length_eq_one.mp hlen with ⟨a, rfl⟩
    exact List.pairwise_singleton _ _
  · rw [if_neg hlen]
    unfold merge_norm_ranges
    cases hsort : Overlaps.sortAscBy (fun e : StoryEntry => e.norm_start) group with
    | nil => simp
    | cons hd rest =>
      have hsorted := Overlaps.sortAscBy_sorted (fun e : StoryEntry => e.norm_start) group
      rw [hsort] at hsorted
      rcases List.pairwise_cons.mp hsorted with ⟨hhead, htail⟩
      have hsep := (merge_loop_sep rest hd.norm_start hd.norm_end [hd] htail).1
      have hbounds := merge_loop_bounds rest hd.norm_start hd.norm_end [hd]
        (fun x hx => by rcases List.mem_singleton.mp hx with rfl; exact ⟨le_rfl, le_rfl⟩)
        (by simp) ⟨hd, List.mem_singleton.mpr rfl, rfl⟩ ⟨hd, List.mem_singleton.mpr rfl, rfl⟩
        hhead htail
      rw [List.pairwise_map]
      refine hsep.imp_of_mem ?_
      intro r q hr hq hrel
      rw [(span_of_run_bounds r (hbounds r hr).1).2.1,
        (span_of_run_bounds q (hbounds q hq).1).1]
      exact hrel

/-- C4 counterexample: a singleton group is returned unchanged by
`consolidate_group`, so its confidence is not re-derived from its score:
this entry has score 10 but keeps confidence `"LOW"`. -/
theorem c4_singleton_confidence_counterexample :
    consolidate_group [singletonEntry] = [singletonEntry]
      ∧ (9 : ℚ) ≤ singletonEntry.score ∧ singletonEntry.confidence ≠ "HIGH" := by
  decide

/-- C4 (amended): for every group of at least two matches, each output span
comes from a nonempty sub-collection of the group: its `span_a` and
`span_b` are the union (componentwise min start / max end, attained) of
the sub-collection's ranges, its score is the maximal score, its topic is
that of a highest-scoring member, and its confidence is derived from the
score (`>=9` HIGH, `>=7` MEDIUM, else LOW).  (Singleton groups bypass this
and are returned unchanged.) -/
theorem c4_merged_span_composition (group : List StoryEntry) (h2 : 2 ≤ group.length)
    (s : StoryEntry) (hs : s ∈ consolidate_group group) :
    ∃ sub : List StoryEntry, sub ≠ [] ∧ (∀ x ∈ sub, x ∈ group)
      ∧ (∀ x ∈ sub, s.norm_start ≤ x.norm_start ∧ x.norm_end ≤ s.norm_end
          ∧ s.tdk_start ≤ x.tdk_start ∧ x.tdk_end ≤ s.tdk_end ∧ x.score ≤ s.score)
      ∧ (∃ x ∈ sub, x.norm_start = s.norm_start) ∧ (∃ x ∈ sub, x.norm_end = s.norm_end)
      ∧ (∃ x ∈ sub, x.tdk_start = s.tdk_start) ∧ (∃ x ∈ sub, x.tdk_end = s.tdk_end)
      ∧ (∃ b ∈ sub, b.score = s.score ∧ s.topic = b.topic)
      ∧ s.confidence = (if 9 ≤ s.score then "HIGH"
          else if 7 ≤ s.score then "MEDIUM" else "LOW") := by
  unfold consolidate_group at hs
  rw [if_neg (by omega)] at hs
  rcases List.mem_map.mp hs with ⟨r, hr, rfl⟩
  unfold merge_norm_ranges at hr
  cases hsort : Overlaps.sortAscBy (fun e : StoryEntry => e.norm_start) group with
  | nil =>
    rw [hsort] at hr
    simp at hr
  | cons hd rest =>
    rw [hsort] at hr
    have hsorted := Overlaps.sortAscBy_sorted (fun e : StoryEntry => e.norm_start) group
    rw [hsort] at hsorted
    rcases List.pairwise_cons.mp hsorted with ⟨hhead, htail⟩
    rcases merge_loop_bounds rest hd.norm_start hd.norm_end [hd]
      (fun x hx => by rcases List.mem_singleton.mp hx with rfl; exact ⟨le_rfl, le_rfl⟩)
      (by simp) ⟨hd, List.mem_singleton.mpr rfl, rfl⟩ ⟨hd, List.mem_singleton.mpr rfl, rfl⟩
      hhead htail r hr with ⟨hne, hmem, hnorm, hnstart, hnend⟩
    rcases span_of_run_bounds r hne with ⟨hsp1, hsp2, hsp3, hsp4, hsp5, hsp6, hsp7⟩
    have hmem2 : ∀ x ∈ r.2.2, x ∈ group := by
      intro x hx
      have : x ∈ hd :: rest := by
        rcases hmem x hx with hx2 | hx2
        · rcases List.mem_singleton.mp hx2 with rfl
          exact List.mem_cons_self _ _
        · exact List.mem_cons_of_mem _ hx2
      apply (Overlaps.sortAscBy_perm (fun e : StoryEntry => e.norm_start) group).mem_iff.mp
      rw [hsort]
      exact this
    refine ⟨r.2.2, hne, hmem2, ?_, ?_, ?_, ?_, ?_, hsp6, hsp7⟩
    · intro x hx
      exact ⟨hsp1 ▸ (hnorm x hx).1, hsp2 ▸ (hnorm x hx).2,
        (hsp3 x hx).1, (hsp3 x hx).2.1, (hsp3 x hx).2.2⟩
    · rcases hnstart with ⟨x, hx, hxs⟩
      exact ⟨x, hx, by rw [hxs, hsp1]⟩
    · rcases hnend with ⟨x, hx, hxs⟩
      exact ⟨x, hx, by rw [hxs, hsp2]⟩
    · exact hsp4
    · exact hsp5

theorem c4_merged_span_composition_witness :
    (consolidate_all [adjacent1, adjacent2, adjacent3] = [scenarioCSpan]
        ∧ consolidate_group [adjacent1, adjacent2, adjacent3] = [scenarioCSpan])
    ∧ ∃ sub : List StoryEntry, sub ≠ []
        ∧ (∀ x ∈ sub, x ∈ [adjacent1, adjacent2, adjacent3])
        ∧ (∀ x ∈ sub, scenarioCSpan.norm_start ≤ x.norm_start
            ∧ x.norm_end ≤ scenarioCSpan.norm_end
            ∧ scenarioCSpan.tdk_start ≤ x.tdk_start ∧ x.tdk_end ≤ scenarioCSpan.tdk_end
            ∧ x.score ≤ scenarioCSpan.score)
        ∧ (∃ x ∈ sub, x.norm_start = scenarioCSpan.norm_start)
        ∧ (∃ x ∈ sub, x.norm_end = scenarioCSpan.norm_end)
        ∧ (∃ x ∈ sub, x.tdk_start = scenarioCSpan.tdk_start)
        ∧ (∃ x ∈ sub, x.tdk_end = scenarioCSpan.tdk_end)
        ∧ (∃ b ∈ sub, b.score = scenarioCSpan.score ∧ scenarioCSpan.topic = b.topic)
        ∧ scenarioCSpan.confidence = (if 9 ≤ scenarioCSpan.score then "HIGH"
            else if 7 ≤ scenarioCSpan.score then "MEDIUM" else "LOW") :=
  ⟨⟨by decide, by decide⟩,
    c4_merged_span_composition [adjacent1, adjacent2, adjacent3] (by decide)
      scenarioCSpan (by decide)⟩

/-- C5: False-positive filter: with filtering enabled, a match is dropped
exactly when its score is strictly below `FILTER_MIN_SCORE` and the
absolute midpoint offset between its Norm and TDK ranges strictly exceeds
`FILTER_TIME_DIFF_THRESHOLD`; every other match is kept. -/
theorem c5_false_positive_filter (entries : List StoryEntry) (e : StoryEntry)
    (he : e ∈ entries) :
    (e ∈ (filter_false_positives entries true).2 ↔
        (e.score < FILTER_MIN_SCORE ∧ FILTER_TIME_DIFF_THRESHOLD <
          |(e.norm_start + e.norm_end) / 2 - (e.tdk_start + e.tdk_end) / 2|))
    ∧ (e ∈ (filter_false_positives entries true).1 ↔
        ¬(e.score < FILTER_MIN_SCORE ∧ FILTER_TIME_DIFF_THRESHOLD <
          |(e.norm_start + e.norm_end) / 2 - (e.tdk_start + e.tdk_end) / 2|)) := by
  have hfp : is_false_positive e ↔
      (e.score < FILTER_MIN_SCORE ∧ FILTER_TIME_DIFF_THRESHOLD <
        |(e.norm_start + e.norm_end) / 2 - (e.tdk_start + e.tdk_end) / 2|) := by
    unfold is_false_positive
    exact and_comm
  constructor
  · rw [show (filter_false_positives entries true).2 =
        entries.filter (fun e => decide (is_false_positive e)) from rfl]
    rw [List.mem_filter]
    constructor
    · rintro ⟨_, hp⟩
      exact hfp.mp (of_decide_eq_true hp)
    · intro hcond
      exact ⟨he, decide_eq_true (hfp.mpr hcond)⟩
  · rw [show (filter_false_positives entries true).1 =
        entries.filter (fun e => !decide (is_false_positive e)) from rfl]
    rw [List.mem_filter]
    constructor
    · rintro ⟨_, hp⟩
      intro hcond
      rw [decide_eq_true (hfp.mpr hcond)] at hp
      simp at hp
    · intro hcond
      refine ⟨he, ?_⟩
      rw [decide_eq_false (fun hp => hcond (hfp.mp hp))]
      rfl

theorem c5_false_positive_filter_witness :
    divergentEntry ∈ (filter_false_positives [divergentEntry] true).2 :=
  ((c5_false_positive_filter [divergentEntry] divergentEntry (by decide)).1).mpr
    ⟨by decide, by decide⟩

/-- Coverage of one group: every group member's Norm and TDK ranges are
contained in the ranges of some span of the consolidated group. -/
theorem consolidate_group_cover (g : List StoryEntry) (e : StoryEntry) (he : e ∈ g) :
    ∃ s ∈ consolidate_group g, s.norm_start ≤ e.norm_start ∧ e.norm_end ≤ s.norm_end
      ∧ s.tdk_start ≤ e.tdk_start ∧ e.tdk_end ≤ s.tdk_end := by
  unfold consolidate_group
  by_cases hlen : g.length = 1
  · rw [if_pos hlen]
    rcases List.length_eq_one.mp hlen with ⟨a, rfl⟩
    rcases List.mem_singleton.mp he with rfl
    exact ⟨e, List.mem_singleton.mpr rfl, le_rfl, le_rfl, le_rfl, le_rfl⟩
  · rw [if_neg hlen]
    have he2 : e ∈ Overlaps.sortAscBy (fun x : StoryEntry => x.norm_start) g :=
      (Overlaps.sortAscBy_perm _ g).mem_iff.mpr he
    unfold merge_norm_ranges
    cases hsort : Overlaps.sortAscBy (fun x : StoryEntry => x.norm_start) g with
    | nil =>
      rw [hsort] at he2
      simp at he2
    | cons hd rest =>
      rw [hsort] at he2
      have hsorted := Overlaps.sortAscBy_sorted (fun x : StoryEntry => x.norm_start) g
      rw [hsort] at hsorted
      rcases List.pairwise_cons.mp hsorted with ⟨hhead, htail⟩
      have hcov : e ∈ [hd] ∨ e ∈ rest := by
        rcases List.mem_cons.mp he2 with h3 | h3
        · exact Or.inl (h3 ▸ List.mem_singleton.mpr rfl)
        · exact Or.inr h3
      rcases merge_loop_cover rest hd.norm_start hd.norm_end [hd] e hcov with ⟨r, hr, her⟩
      rcases merge_loop_bounds rest hd.norm_start hd.norm_end [hd]
        (fun x hx => by rcases List.mem_singleton.mp hx with rfl; exact ⟨le_rfl, le_rfl⟩)
        (by simp) ⟨hd, List.mem_singleton.mpr rfl, rfl⟩ ⟨hd, List.mem_singleton.mpr rfl, rfl⟩
        hhead htail r hr with ⟨hne, _, hnorm, _, _⟩
      refine ⟨span_of_run r, List.mem_map_of_mem _ hr, ?_, ?_, ?_, ?_⟩
      · rw [(span_of_run_bounds r hne).1]
        exact (hnorm e her).1
      · rw [(span_of_run_bounds r hne).2.1]
        exact (hnorm e her).2
      · exact ((span_of_run_bounds r hne).2.2.1 e her).1
      · exact ((span_of_run_bounds r hne).2.2.1 e her).2.1

end Consolidate

end ClaimTheoremsC

section ClaimTheoremsD

attribute [local semireducible] Rat.add Rat.sub Rat.mul Rat.inv

set_option maxRecDepth 1000000

namespace Consolidate

/-- C10 counterexample: consolidation can produce two distinct spans that
both contain one input entry's full `span_a` and `span_b` ranges (a wide
and a narrow match with the same `tdk_start` whose TDK overlap, 29s, is
just below the 30s grouping threshold stay separate, and the wide span
also contains the narrow one), so the containing span is not unique. -/
theorem c10_unique_span_counterexample :
    narrowEntry ∈ [wideEntry, narrowEntry]
      ∧ ∃ s ∈ consolidate_all [wideEntry, narrowEntry],
          ∃ t ∈ consolidate_all [wideEntry, narrowEntry], s ≠ t
            ∧ (s.norm_start ≤ narrowEntry.norm_start ∧ narrowEntry.norm_end ≤ s.norm_end
                ∧ s.tdk_start ≤ narrowEntry.tdk_start ∧ narrowEntry.tdk_end ≤ s.tdk_end)
            ∧ (t.norm_start ≤ narrowEntry.norm_start ∧ narrowEntry.norm_end ≤ t.norm_end
                ∧ t.tdk_start ≤ narrowEntry.tdk_start ∧ narrowEntry.tdk_end ≤ t.tdk_end) := by
  decide

/-- C10 (amended): consolidation never loses a match: for every entry of
the input list there exists at least one output span whose `span_a` range
contains the entry's full `span_a` range and whose `span_b` range contains
its full `span_b` range (grouping covers every entry and merging covers
every group member; uniqueness of the containing span does not hold). -/
theorem c10_consolidation_coverage (entries : List StoryEntry) (e : StoryEntry)
    (he : e ∈ entries) :
    ∃ s ∈ consolidate_all entries, s.norm_start ≤ e.norm_start ∧ e.norm_end ≤ s.norm_end
      ∧ s.tdk_start ≤ e.tdk_start ∧ e.tdk_end ≤ s.tdk_end := by
  have he2 : e ∈ Overlaps.sortAscBy (fun x : StoryEntry => x.tdk_start) entries :=
    (Overlaps.sortAscBy_perm _ _).mem_iff.mpr he
  cases hsort : Overlaps.sortAscBy (fun x : StoryEntry => x.tdk_start) entries with
  | nil =>
    rw [hsort] at he2
    simp at he2
  | cons a rest =>
    rw [hsort] at he2
    have hgroups : group_by_tdk_overlap entries = group_loop a.tdk_start a.tdk_end [a] rest := by
      unfold group_by_tdk_overlap
      rw [if_neg (by decide), hsort]
    have hcov : e ∈ [a] ∨ e ∈ rest := by
      rcases List.mem_cons.mp he2 with h3 | h3
      · exact Or.inl (h3 ▸ List.mem_singleton.mpr rfl)
      · exact Or.inr h3
    rcases group_loop_cover rest a.tdk_start a.tdk_end [a] e hcov with ⟨g, hg, heg⟩
    rcases consolidate_group_cover g e heg with ⟨s, hs, hb1, hb2, hb3, hb4⟩
    refine ⟨s, ?_, hb1, hb2, hb3, hb4⟩
    apply (Overlaps.sortAscBy_perm (fun x : StoryEntry => x.norm_start) _).mem_iff.mpr
    exact List.mem_flatten.mpr ⟨consolidate_group g,
      List.mem_map_of_mem _ (hgroups ▸ hg), hs⟩

theorem c10_consolidation_coverage_witness :
    ∃ s ∈ consolidate_all [divergentEntry],
      s.norm_start ≤ divergentEntry.norm_start ∧ divergentEntry.norm_end ≤ s.norm_end
        ∧ s.tdk_start ≤ divergentEntry.tdk_start ∧ divergentEntry.tdk_end ≤ s.tdk_end :=
  c10_consolidation_coverage [divergentEntry] divergentEntry (by decide)

end Consolidate

end ClaimTheoremsD
